import Mathlib

/-!
Verification of core behaviours of the scipion-pyworkflow workflow engine:
the step executors (`pyworkflow/protocol/executor.py`) and the project
scheduler (`pyworkflow/project/project.py`), shallowly embedded in Lean.

Python strings are modelled as `List Char`, Python integers as `Nat`,
Python exceptions as explicit error values.
-/

namespace Pwf

/-- Modelled from the spec: the status enum of `pyworkflow/protocol/constants.py`
(not part of the provided sources).  One set of constants, reused for protocols
and steps: NEW, SAVED, SCHEDULED, LAUNCHED, RUNNING, FINISHED, FAILED, ABORTED,
INTERACTIVE, WAITING. -/
inductive Status where
  | new
  | saved
  | scheduled
  | launched
  | running
  | finished
  | failed
  | aborted
  | interactive
  | waiting
deriving DecidableEq, Repr

/-- Modelled from the spec: `ACTIVE_STATUS` from
`pyworkflow/protocol/constants.py`; "Active" is
{LAUNCHED, RUNNING, SCHEDULED, INTERACTIVE, WAITING}. -/
def ACTIVE_STATUS : List Status :=
  [Status.launched, Status.running, Status.scheduled,
   Status.interactive, Status.waiting]

/-! ## Step executor (`pyworkflow/protocol/executor.py`)

A `Step` carries its static data: the prerequisite list (1-based indices into
the protocol's step list, as in `s._prerequisites`) and the outcome of its
`_run` body (`none` = returns normally, `some e` = raises an exception whose
stringified form is `e`).  The mutable status of the steps is kept apart, as a
`List Status` parallel to the step list. -/

structure Step where
  prerequisites : List Nat
  runResult : Option (List Char)
deriving DecidableEq, Repr

/-- Default step used for out-of-range `getD` lookups (the executor only ever
indexes in range). -/
def defaultStep : Step := ⟨[], none⟩

/-- `Step.isFinished`, as used by `_getRunnable`. -/
def isFinished (s : Status) : Bool := s == Status.finished

/-- The selection predicate inside `StepExecutor._getRunnable`
(executor.py:77-78): the step's status is NEW and
`all(steps[i-1].isFinished() for i in s._prerequisites)`. -/
def stepIsRunnable (steps : List Step) (st : List Status) (i : Nat) : Bool :=
  (st.getD i Status.new == Status.new) &&
    ((steps.getD i defaultStep).prerequisites.all
      (fun j => isFinished (st.getD (j - 1) Status.new)))

/-- Accumulating loop of `StepExecutor._getRunnable` (executor.py:74-82):
walk the steps in order, append each runnable one, stop as soon as `n` have
been collected.  Indices stand for the step objects appended in Python. -/
def getRunnableGo (steps : List Step) (st : List Status) (n : Nat) :
    List Nat → List Nat → List Nat
  | [], rs => rs
  | i :: is, rs =>
    if stepIsRunnable steps st i then
      let rs' := rs ++ [i]
      if rs'.length == n then rs' else getRunnableGo steps st n is rs'
    else getRunnableGo steps st n is rs

/-- `StepExecutor._getRunnable(steps, n)`: the at most `n` first steps that are
NEW with all prerequisites FINISHED. -/
def getRunnable (steps : List Step) (st : List Status) (n : Nat) : List Nat :=
  getRunnableGo steps st n (List.range steps.length) []

/-- `StepExecutor._arePending` (executor.py:84-88): some step is RUNNING or
WAITING. -/
def arePending (st : List Status) : Bool :=
  st.any (fun s => s == Status.running || s == Status.waiting)

/-- The `finally` block of `StepThread.run` (executor.py:145-157): if the
step's `_run` raised no exception the step is set FINISHED, otherwise it is
set FAILED with the stringified exception. -/
def stepThreadFinal (s : Step) : Status :=
  match s.runResult with
  | none => Status.finished
  | some _ => Status.failed

/-- Observable scheduling events of `ThreadStepExecutor.runSteps`:
`start i` = the main loop books step `i` (sets it RUNNING, fires the started
callback and spawns its `StepThread`); `finish i` = step `i`'s thread reaches
its `finally` block and records the final status. -/
inductive Event where
  | start (i : Nat)
  | finish (i : Nat)
deriving DecidableEq, Repr

/-- One transition of the thread-pool executor, over the step-status state.
A step may be started only if it was returned by `_getRunnable` (the main loop
at executor.py:238-251 only starts steps from that list, with `n` the number
of free nodes); it then becomes RUNNING.  A RUNNING step may finish, taking
the status computed by its `StepThread` (executor.py:152-157). -/
inductive ExecStep (steps : List Step) : List Status → Event → List Status → Prop where
  | start (st : List Status) (i n : Nat)
      (hmem : i ∈ getRunnable steps st n) :
      ExecStep steps st (Event.start i) (st.set i Status.running)
  | finish (st : List Status) (i : Nat)
      (hrun : st.getD i Status.new = Status.running) (hi : i < st.length) :
      ExecStep steps st (Event.finish i)
        (st.set i (stepThreadFinal (steps.getD i defaultStep)))

/-- Interleavings of the executor: a sequence of `ExecStep` transitions. -/
inductive Trace (steps : List Step) : List Status → List Event → List Status → Prop where
  | nil (st : List Status) : Trace steps st [] st
  | cons {st st' st'' : List Status} {e : Event} {es : List Event}
      (hstep : ExecStep steps st e st')
      (htail : Trace steps st' es st'') :
      Trace steps st (e :: es) st''

/-! ### Lemmas about the step executor -/

theorem getD_set_self {α : Type} (l : List α) (i : Nat) (a d : α)
    (h : i < l.length) : (l.set i a).getD i d = a := by
  simp [List.getD_eq_getElem?_getD, List.getElem?_set, h]

theorem getD_set_ne {α : Type} (l : List α) (i j : Nat) (a d : α)
    (h : j ≠ i) : (l.set i a).getD j d = l.getD j d := by
  simp [List.getD_eq_getElem?_getD, List.getElem?_set, Ne.symm h]

theorem mem_getRunnableGo (steps : List Step) (st : List Status) (n : Nat) :
    ∀ is rs i, i ∈ getRunnableGo steps st n is rs →
      i ∈ rs ∨ (i ∈ is ∧ stepIsRunnable steps st i = true) := by
  intro is
  induction is with
  | nil => intro rs i h; exact Or.inl h
  | cons i' is ih =>
    intro rs i h
    unfold getRunnableGo at h
    by_cases hr : stepIsRunnable steps st i' = true
    · simp only [hr, if_true] at h
      by_cases hn : (rs ++ [i']).length == n
      · simp only [hn, if_true] at h
        rcases List.mem_append.mp h with h1 | h2
        · exact Or.inl h1
        · have : i = i' := List.mem_singleton.mp h2
          exact Or.inr ⟨this ▸ List.mem_cons_self i' is, this ▸ hr⟩
      · simp only [hn, if_false] at h
        rcases ih (rs ++ [i']) i h with h1 | h2
        · rcases List.mem_append.mp h1 with h3 | h4
          · exact Or.inl h3
          · have : i = i' := List.mem_singleton.mp h4
            exact Or.inr ⟨this ▸ List.mem_cons_self i' is, this ▸ hr⟩
        · exact Or.inr ⟨List.mem_cons_of_mem i' h2.1, h2.2⟩
    · simp only [Bool.not_eq_true] at hr
      simp only [hr, if_false] at h
      rcases ih rs i h with h1 | h2
      · exact Or.inl h1
      · exact Or.inr ⟨List.mem_cons_of_mem i' h2.1, h2.2⟩

/-- A step returned by `_getRunnable` is in range and satisfies the
runnability predicate. -/
theorem mem_getRunnable (steps : List Step) (st : List Status) (n i : Nat)
    (h : i ∈ getRunnable steps st n) :
    i < steps.length ∧ stepIsRunnable steps st i = true := by
  rcases mem_getRunnableGo steps st n (List.range steps.length) [] i h with h1 | h2
  · exact absurd h1 (List.not_mem_nil i)
  · exact ⟨List.mem_range.mp h2.1, h2.2⟩

/-- Unpacking `stepIsRunnable`: the step is NEW and every prerequisite
(1-based) is FINISHED. -/
theorem stepIsRunnable_spec (steps : List Step) (st : List Status) (i : Nat)
    (h : stepIsRunnable steps st i = true) :
    st.getD i Status.new = Status.new ∧
      ∀ j ∈ (steps.getD i defaultStep).prerequisites,
        st.getD (j - 1) Status.new = Status.finished := by
  unfold stepIsRunnable at h
  rcases Bool.and_eq_true_iff.mp h with ⟨h1, h2⟩
  constructor
  · exact eq_of_beq h1
  · intro j hj
    have := List.all_eq_true.mp h2 j hj
    unfold isFinished at this
    exact eq_of_beq this

/-- `ExecStep` preserves the length of the status list. -/
theorem execStep_length {steps : List Step} {st st' : List Status} {e : Event}
    (h : ExecStep steps st e st') : st'.length = st.length := by
  cases h with
  | start i n hmem => exact List.length_set _ _ _
  | finish i hrun hi => exact List.length_set _ _ _

theorem trace_length {steps : List Step} {st st' : List Status}
    {es : List Event} (h : Trace steps st es st') : st'.length = st.length := by
  induction h with
  | nil st => rfl
  | cons hstep htail ih => exact ih.trans (execStep_length hstep)

/-- A step that is RUNNING, FINISHED or FAILED never becomes NEW again, and
can only move among those three statuses. -/
theorem trace_preserves_started {steps : List Step} {stA stB : List Status}
    {es : List Event} (htr : Trace steps stA es stB) (i : Nat)
    (hinv : stA.getD i Status.new = Status.running ∨
            stA.getD i Status.new = Status.finished ∨
            stA.getD i Status.new = Status.failed) :
    stB.getD i Status.new = Status.running ∨
    stB.getD i Status.new = Status.finished ∨
    stB.getD i Status.new = Status.failed := by
  induction htr with
  | nil st => exact hinv
  | @cons st st' st'' e es hstep htail ih =>
    apply ih
    cases hstep with
    | start j n hmem =>
      have hj : j ≠ i := by
        intro hji
        subst hji
        have hnew := (stepIsRunnable_spec steps st j
          (mem_getRunnable steps st n j hmem).2).1
        rcases hinv with h | h | h <;> rw [hnew] at h <;> cases h
      rw [getD_set_ne st j i Status.running Status.new (Ne.symm hj)]
      exact hinv
    | finish j hrun hj =>
      by_cases hji : j = i
      · subst hji
        rw [getD_set_self st j _ Status.new hj]
        unfold stepThreadFinal
        cases (steps.getD j defaultStep).runResult with
        | none => exact Or.inr (Or.inl rfl)
        | some e => exact Or.inr (Or.inr rfl)
      · rw [getD_set_ne st j i _ Status.new (Ne.symm hji)]
        exact hinv

/-- A started step is RUNNING, FINISHED or FAILED in every later state. -/
theorem trace_started {steps : List Step} {stA stB : List Status}
    {es : List Event} (htr : Trace steps stA es stB)
    (hlen : stA.length = steps.length) (i : Nat)
    (hstarted : Event.start i ∈ es) :
    stB.getD i Status.new = Status.running ∨
    stB.getD i Status.new = Status.finished ∨
    stB.getD i Status.new = Status.failed := by
  induction htr with
  | nil st => exact absurd hstarted (List.not_mem_nil _)
  | @cons st st' st'' e es hstep htail ih =>
    have hlen' : st'.length = steps.length := by
      rw [execStep_length hstep, hlen]
    by_cases he : e = Event.start i
    · subst he
      cases hstep with
      | start i' n hmem =>
        apply trace_preserves_started htail
        have hj : i < steps.length := (mem_getRunnable steps st n i hmem).1
        rw [getD_set_self st i Status.running Status.new (by rw [hlen]; exact hj)]
        exact Or.inl rfl
    · have hmem : Event.start i ∈ es := by
        rcases List.mem_cons.mp hstarted with h | h
        · exact absurd h.symm he
        · exact h
      exact ih hlen' hmem

/-- Decompose a trace at a designated event. -/
theorem trace_append_split {steps : List Step} {st₀ stF : List Status}
    {e : Event} (es₁ es₂ : List Event)
    (htr : Trace steps st₀ (es₁ ++ e :: es₂) stF) :
    ∃ stm st', Trace steps st₀ es₁ stm ∧ ExecStep steps stm e st' ∧
      Trace steps st' es₂ stF := by
  induction es₁ generalizing st₀ with
  | nil =>
    cases htr with
    | cons hstep htail => exact ⟨st₀, _, Trace.nil st₀, hstep, htail⟩
  | cons e₁ es₁ ih =>
    cases htr with
    | cons hstep htail =>
      rcases ih htail with ⟨stm, st', h1, h2, h3⟩
      exact ⟨stm, st', Trace.cons hstep h1, h2, h3⟩

/-- C1: for every step list whose step `i` has prerequisites inside
{1..i-1} (1-based), along any interleaving of `ThreadStepExecutor.runSteps`:
(a) a step is started only when `_getRunnable` selected it, i.e. in the state
at that moment its status is NEW and every prerequisite is FINISHED, so no
step starts before its prerequisites are FINISHED; (b) once all worker
threads have terminated (no step left RUNNING), every step that was started
has status FINISHED or FAILED; (c) a step's thread records FINISHED exactly
when its run raised no exception, FAILED (with the stringified exception)
otherwise. -/
theorem C1_thread_executor_step_safety
    (steps : List Step) (es : List Event) (stF : List Status)
    (hpre : ∀ i, i < steps.length →
      ∀ j ∈ (steps.getD i defaultStep).prerequisites, 1 ≤ j ∧ j - 1 < i)
    (htr : Trace steps (List.replicate steps.length Status.new) es stF) :
    (∀ es₁ i es₂, es = es₁ ++ Event.start i :: es₂ →
       ∃ stm, Trace steps (List.replicate steps.length Status.new) es₁ stm ∧
         stm.getD i Status.new = Status.new ∧
         ∀ j ∈ (steps.getD i defaultStep).prerequisites,
           stm.getD (j - 1) Status.new = Status.finished)
    ∧ ((∀ k, stF.getD k Status.new ≠ Status.running) →
       ∀ i, Event.start i ∈ es →
         stF.getD i Status.new = Status.finished ∨
         stF.getD i Status.new = Status.failed)
    ∧ (∀ s : Step, stepThreadFinal s = Status.finished ↔ s.runResult = none) := by
  refine ⟨?_, ?_, ?_⟩
  · intro es₁ i es₂ heq
    subst heq
    rcases trace_append_split es₁ es₂ htr with ⟨stm, st', h1, h2, h3⟩
    cases h2 with
    | start i' n hmem =>
      have hspec := stepIsRunnable_spec steps stm i
        (mem_getRunnable steps stm n i hmem).2
      exact ⟨stm, h1, hspec.1, hspec.2⟩
  · intro hnorun i hstarted
    have h := trace_started htr (List.length_replicate steps.length Status.new)
      i hstarted
    rcases h with h | h | h
    · exact absurd h (hnorun i)
    · exact Or.inl h
    · exact Or.inr h
  · intro s
    unfold stepThreadFinal
    cases hs : s.runResult with
    | none => simp
    | some e => simp

/-- Concrete two-step protocol for the C1 witness: step 2 requires step 1,
step 2's run raises. -/
def c1Steps : List Step := [⟨[], none⟩, ⟨[1], some ['e']⟩]

def c1Events : List Event :=
  [Event.start 0, Event.finish 0, Event.start 1, Event.finish 1]

def c1Final : List Status := [Status.finished, Status.failed]

theorem c1Trace :
    Trace c1Steps (List.replicate c1Steps.length Status.new) c1Events c1Final := by
  refine Trace.cons (ExecStep.start _ 0 1 (by decide)) ?_
  refine Trace.cons (ExecStep.finish _ 0 (by decide) (by decide)) ?_
  refine Trace.cons (ExecStep.start _ 1 1 (by decide)) ?_
  exact Trace.cons (ExecStep.finish _ 1 (by decide) (by decide)) (Trace.nil _)

theorem C1_thread_executor_step_safety_witness :
    (∀ es₁ i es₂, c1Events = es₁ ++ Event.start i :: es₂ →
       ∃ stm, Trace c1Steps (List.replicate c1Steps.length Status.new) es₁ stm ∧
         stm.getD i Status.new = Status.new ∧
         ∀ j ∈ (c1Steps.getD i defaultStep).prerequisites,
           stm.getD (j - 1) Status.new = Status.finished)
    ∧ ((∀ k, c1Final.getD k Status.new ≠ Status.running) →
       ∀ i, Event.start i ∈ c1Events →
         c1Final.getD i Status.new = Status.finished ∨
         c1Final.getD i Status.new = Status.failed)
    ∧ (∀ s : Step, stepThreadFinal s = Status.finished ↔ s.runResult = none) :=
  C1_thread_executor_step_safety c1Steps c1Events c1Final (by decide) c1Trace

/-! ## GPU partitioning (`ThreadStepExecutor.__init__`, executor.py:163-185) -/

/-- Python list repetition `l * k`. -/
def listMul {α : Type} (l : List α) : Nat → List α
  | 0 => []
  | k + 1 => l ++ listMul l k

/-- The GPU distribution computed in `ThreadStepExecutor.__init__`
(executor.py:170-185): worker `i` is mapped to its GPU slice.  If the GPU
list is empty (falsy) nothing is assigned.  If there are more GPUs than
threads each worker `i` receives the consecutive slice
`gpuList[i*chunk:(i+1)*chunk]` with `chunk = len(gpuList) // nThreads`;
otherwise the list is repeated up to `nThreads` entries and
`zip(nodes, gpuList)` gives each worker a single GPU. -/
def gpuDict {α : Type} (gpuList : List α) (nThreads : Nat) : List (List α) :=
  if gpuList.isEmpty then []
  else if gpuList.length > nThreads then
    let chunk := gpuList.length / nThreads
    (List.range nThreads).map (fun i => (gpuList.drop (i * chunk)).take chunk)
  else
    let gl := if nThreads > gpuList.length
              then (listMul gpuList (nThreads / gpuList.length + 1)).take nThreads
              else gpuList
    (gl.take nThreads).map (fun g => [g])

theorem listMul_length {α : Type} (l : List α) (k : Nat) :
    (listMul l k).length = k * l.length := by
  induction k with
  | zero => simp [listMul]
  | succ k ih => simp [listMul, ih, Nat.succ_mul, Nat.add_comm]

theorem flatten_map_singleton {α : Type} (l : List α) :
    (l.map (fun g => [g])).flatten = l := by
  induction l with
  | nil => rfl
  | cons x xs ih => simp [ih]

/-- Concatenating the consecutive chunks recovers a prefix of the list. -/
theorem flatten_chunks {α : Type} (l : List α) (c : Nat) : ∀ n : Nat,
    ((List.range n).map (fun i => (l.drop (i * c)).take c)).flatten =
      l.take (n * c) := by
  intro n
  induction n with
  | zero => simp
  | succ n ih =>
    rw [List.range_succ, List.map_append, List.flatten_append, ih]
    simp only [List.map_cons, List.map_nil, List.flatten_cons, List.flatten_nil,
      List.append_nil, Nat.succ_mul]
    exact (List.take_add l (n * c) c).symm

/-- C5 (amended): with at least one worker and a non-empty GPU list:
every worker slice has size `⌊K/N⌋` when `K ≥ N` (one of the two sizes the
claim allows) and size 1 when `K < N`; the union of the slices contains every
input GPU when `K ≤ N` or when `N` divides `K` — but not in general: for
`K > N` with `N ∤ K` the trailing `K mod N` GPUs are assigned to no worker
(see the counterexample). -/
theorem C5_gpu_partitioning {α : Type} (gpuList : List α) (nThreads : Nat)
    (hn : 1 ≤ nThreads) (hg : gpuList ≠ []) :
    (gpuDict gpuList nThreads).length = nThreads
    ∧ (nThreads ≤ gpuList.length → ∀ i < nThreads,
        ((gpuDict gpuList nThreads).getD i []).length =
          gpuList.length / nThreads)
    ∧ (gpuList.length < nThreads → ∀ i < nThreads,
        ((gpuDict gpuList nThreads).getD i []).length = 1)
    ∧ ((gpuList.length ≤ nThreads ∨ nThreads ∣ gpuList.length) →
        ∀ x ∈ gpuList, x ∈ (gpuDict gpuList nThreads).flatten) := by
  have hK : 0 < gpuList.length := List.length_pos.mpr hg
  have hne : gpuList.isEmpty = false := by
    cases gpuList with
    | nil => exact absurd rfl hg
    | cons a l => rfl
  by_cases hgt : gpuList.length > nThreads
  · -- more GPUs than workers: consecutive ⌊K/N⌋ chunks
    have hchunkmul : nThreads * (gpuList.length / nThreads) ≤ gpuList.length := by
      rw [Nat.mul_comm]
      exact Nat.div_mul_le_self gpuList.length nThreads
    have hform : gpuDict gpuList nThreads =
        (List.range nThreads).map
          (fun i => (gpuList.drop (i * (gpuList.length / nThreads))).take
            (gpuList.length / nThreads)) := by
      unfold gpuDict
      rw [hne]
      simp only [Bool.false_eq_true, if_false, hgt, if_true]
    refine ⟨?_, ?_, ?_, ?_⟩
    · rw [hform, List.length_map, List.length_range]
    · intro _ i hi
      rw [hform, List.getD_eq_getElem?_getD, List.getElem?_map,
        List.getElem?_range hi]
      simp only [Option.map_some', Option.getD_some]
      rw [List.length_take, List.length_drop]
      have hle : (i + 1) * (gpuList.length / nThreads) ≤ gpuList.length := by
        calc (i + 1) * (gpuList.length / nThreads)
            ≤ nThreads * (gpuList.length / nThreads) :=
              Nat.mul_le_mul_right _ hi
          _ ≤ gpuList.length := hchunkmul
      rw [Nat.min_eq_left]
      exact Nat.le_sub_of_add_le
        (by rw [Nat.add_comm, ← Nat.succ_mul]; exact hle)
    · intro hlt; omega
    · intro hcase x hx
      rcases hcase with hle | hdvd
      · omega
      · rw [hform, flatten_chunks,
          Nat.mul_div_cancel' hdvd, List.take_length]
        exact hx
  · -- K ≤ N: every worker gets a single GPU
    push_neg at hgt
    by_cases hexp : nThreads > gpuList.length
    · -- strict: the list is repeated to nThreads entries
      have hlenrep : nThreads ≤
          (listMul gpuList (nThreads / gpuList.length + 1)).length := by
        rw [listMul_length]
        have h1 : nThreads < (nThreads / gpuList.length + 1) * gpuList.length :=
          (Nat.div_lt_iff_lt_mul hK).mp (Nat.lt_succ_self _)
        omega
      have hform : gpuDict gpuList nThreads =
          (((listMul gpuList (nThreads / gpuList.length + 1)).take
            nThreads).take nThreads).map (fun g => [g]) := by
        unfold gpuDict
        rw [hne]
        simp only [Bool.false_eq_true, if_false]
        rw [if_neg (by omega), if_pos hexp]
      have hgl : (((listMul gpuList (nThreads / gpuList.length + 1)).take
          nThreads).take nThreads) =
          (listMul gpuList (nThreads / gpuList.length + 1)).take nThreads := by
        rw [List.take_take]; simp
      have hlen : ((listMul gpuList (nThreads / gpuList.length + 1)).take
          nThreads).length = nThreads := by
        rw [List.length_take]
        omega
      refine ⟨?_, ?_, ?_, ?_⟩
      · rw [hform, hgl, List.length_map, hlen]
      · intro h; omega
      · intro _ i hi
        rw [hform, hgl, List.getD_eq_getElem?_getD, List.getElem?_map]
        have hi' : i < ((listMul gpuList (nThreads / gpuList.length + 1)).take
            nThreads).length := by omega
        rw [List.getElem?_eq_getElem hi']
        simp
      · intro _ x hx
        rw [hform, hgl, flatten_map_singleton]
        have hstep : listMul gpuList (nThreads / gpuList.length + 1) =
            gpuList ++ listMul gpuList (nThreads / gpuList.length) := rfl
        rw [hstep, List.take_append_eq_append_take,
          List.take_of_length_le (by omega)]
        exact List.mem_append_left _ hx
    · -- K = N: zip over the unexpanded list
      have heq : gpuList.length = nThreads := by omega
      have hform : gpuDict gpuList nThreads =
          (gpuList.take nThreads).map (fun g => [g]) := by
        unfold gpuDict
        rw [hne]
        simp only [Bool.false_eq_true, if_false]
        rw [if_neg (by omega), if_neg hexp]
      have htake : gpuList.take nThreads = gpuList := by
        rw [← heq, List.take_length]
      refine ⟨?_, ?_, ?_, ?_⟩
      · rw [hform, htake, List.length_map, heq]
      · intro _ i hi
        rw [hform, htake, List.getD_eq_getElem?_getD, List.getElem?_map]
        have hi' : i < gpuList.length := by omega
        rw [List.getElem?_eq_getElem hi']
        simp only [Option.map_some', Option.getD_some, List.length_cons,
          List.length_nil]
        rw [heq]
        exact (Nat.div_self (by omega)).symm
      · intro h; omega
      · intro _ x hx
        rw [hform, htake, flatten_map_singleton]
        exact hx

theorem C5_gpu_partitioning_witness :
    ((gpuDict [10, 11, 12] 3).length = 3
    ∧ (3 ≤ ([10, 11, 12] : List Nat).length → ∀ i < 3,
        ((gpuDict [10, 11, 12] 3).getD i []).length = ([10, 11, 12] : List Nat).length / 3)
    ∧ (([10, 11, 12] : List Nat).length < 3 → ∀ i < 3,
        ((gpuDict [10, 11, 12] 3).getD i []).length = 1)
    ∧ ((([10, 11, 12] : List Nat).length ≤ 3 ∨ 3 ∣ ([10, 11, 12] : List Nat).length) →
        ∀ x ∈ ([10, 11, 12] : List Nat), x ∈ (gpuDict [10, 11, 12] 3).flatten)) :=
  C5_gpu_partitioning [10, 11, 12] 3 (by decide) (by decide)

/-- C5 counterexample: with GPUs `[0,1,2,3,4]` and 2 workers the slices are
`[[0,1],[2,3]]`; GPU 4 belongs to the input list but to no worker slice, so
the union of the slices is not a superset of the input list. -/
theorem C5_gpu_union_counterexample :
    gpuDict ([0, 1, 2, 3, 4] : List Nat) 2 = [[0, 1], [2, 3]]
    ∧ (4 : Nat) ∈ ([0, 1, 2, 3, 4] : List Nat)
    ∧ ¬ ((4 : Nat) ∈ (gpuDict ([0, 1, 2, 3, 4] : List Nat) 2).flatten) := by
  decide

/-! ## Queue executor (`QueueStepExecutor.runJob`, executor.py:287-339) -/

/-- Modelled from the spec: `UNKNOWN_JOBID`, the sentinel returned by the
launcher (`pyworkflow/protocol/launch.py`, not part of the provided sources)
when the queue submission yielded no job id. -/
def UNKNOWN_JOBID : Int := -1

/-- The update applied to `wait` after each poll sleep
(executor.py:313-314): `if wait < 300: wait += 3`. -/
def nextWait (wait : Nat) : Nat := if wait < 300 then wait + 3 else wait

/-- Successive values of the poll interval: `waitSeq n` is the value of
`wait` used for the `n`-th sleep (executor.py:307 initialises `wait = 3`). -/
def waitSeq : Nat → Nat
  | 0 => 3
  | n + 1 => nextWait (waitSeq n)

/-- The polling loop of `QueueStepExecutor.runJob` (executor.py:311-314):
`poll k` is the status reported by `_checkJobStatus` at the `k`-th check;
the loop sleeps `wait` seconds and backs `wait` off while the job is
RUNNING.  `fuel` bounds the number of iterations modelled; the result is the
iteration counter at exit and the final value of `wait`. -/
def queuePollLoop (poll : Nat → Status) : Nat → Nat → Nat → Nat × Nat
  | 0, k, wait => (k, wait)
  | fuel + 1, k, wait =>
    if poll k == Status.running then queuePollLoop poll fuel (k + 1) (nextWait wait)
    else (k, wait)

structure RunJobResult where
  status : Status
  polls : Nat
  finalWait : Nat
deriving DecidableEq, Repr

/-- `QueueStepExecutor.runJob` from the submission on (executor.py:300-316):
if `_submit` returned no job id or `UNKNOWN_JOBID`, an exception is raised
(`none`); otherwise the local variable `status` is set to `STATUS_RUNNING`,
the polling loop runs, and `status` — never reassigned — is returned. -/
def queueRunJob (jobid : Option Int) (poll : Nat → Status) (fuel : Nat) :
    Option RunJobResult :=
  match jobid with
  | none => none
  | some j =>
    if j == UNKNOWN_JOBID then none
    else
      let status := Status.running
      let r := queuePollLoop poll fuel 0 3
      some { status := status, polls := r.1, finalWait := r.2 }

theorem waitSeq_closed (n : Nat) : waitSeq n = min (3 + 3 * n) 300 := by
  induction n with
  | zero => decide
  | succ n ih =>
    show nextWait (waitSeq n) = min (3 + 3 * (n + 1)) 300
    rw [ih]
    unfold nextWait
    by_cases h : 3 + 3 * n < 300
    · rw [Nat.min_eq_left (Nat.le_of_lt h), if_pos h,
        Nat.min_eq_left (by omega)]
      omega
    · rw [Nat.min_eq_right (by omega), if_neg (by omega),
        Nat.min_eq_right (by omega)]

/-- The iteration counter of the polling loop never decreases. -/
theorem queuePollLoop_counter_ge (poll : Nat → Status) : ∀ fuel k w,
    k ≤ (queuePollLoop poll fuel k w).1 := by
  intro fuel
  induction fuel with
  | zero => intro k w; simp [queuePollLoop]
  | succ fuel ih =>
    intro k w
    unfold queuePollLoop
    by_cases h : poll k == Status.running
    · rw [if_pos h]
      have := ih (k + 1) (nextWait w)
      omega
    · rw [if_neg h]

/-- The wait argument threaded through the polling loop follows `waitSeq`:
after the loop has executed its sleeps, the final `wait` is `waitSeq` of the
number of iterations performed. -/
theorem queuePollLoop_wait (poll : Nat → Status) : ∀ fuel k n,
    (queuePollLoop poll fuel k (waitSeq n)).2 =
      waitSeq (n + ((queuePollLoop poll fuel k (waitSeq n)).1 - k)) := by
  intro fuel
  induction fuel with
  | zero => intro k n; simp [queuePollLoop]
  | succ fuel ih =>
    intro k n
    unfold queuePollLoop
    by_cases h : poll k == Status.running
    · rw [if_pos h]
      have hnext : nextWait (waitSeq n) = waitSeq (n + 1) := rfl
      rw [hnext, ih (k + 1) (n + 1)]
      congr 1
      have hk := queuePollLoop_counter_ge poll fuel (k + 1) (waitSeq (n + 1))
      omega
    · rw [if_neg h]
      simp

/-- C7: the poll interval of one `QueueStepExecutor.runJob` call starts at
3 s, satisfies `wait_{n+1} = min(wait_n + 3, 300)`, never exceeds 300 s and
never decreases. -/
theorem C7_queue_backoff :
    waitSeq 0 = 3
    ∧ (∀ n, waitSeq (n + 1) = min (waitSeq n + 3) 300)
    ∧ (∀ n, waitSeq n ≤ 300)
    ∧ (∀ n, waitSeq n ≤ waitSeq (n + 1))
    ∧ (∀ poll fuel k n, (queuePollLoop poll fuel k (waitSeq n)).2 =
        waitSeq (n + ((queuePollLoop poll fuel k (waitSeq n)).1 - k))) := by
  refine ⟨rfl, ?_, ?_, ?_, fun poll fuel k n => queuePollLoop_wait poll fuel k n⟩
  · intro n
    rw [waitSeq_closed n, waitSeq_closed (n + 1)]
    by_cases h : 3 + 3 * n < 300
    · have e1 : min (3 + 3 * n) 300 = 3 + 3 * n := Nat.min_eq_left (by omega)
      have e2 : min (3 + 3 * (n + 1)) 300 = 3 + 3 * (n + 1) :=
        Nat.min_eq_left (by omega)
      have e3 : min (3 + 3 * n + 3) 300 = 3 + 3 * n + 3 :=
        Nat.min_eq_left (by omega)
      rw [e1, e2, e3]
      omega
    · have e1 : min (3 + 3 * n) 300 = 300 := Nat.min_eq_right (by omega)
      have e2 : min (3 + 3 * (n + 1)) 300 = 300 := Nat.min_eq_right (by omega)
      rw [e1, e2]
      have e3 : min (300 + 3) 300 = 300 := Nat.min_eq_right (by omega)
      rw [e3]
  · intro n
    rw [waitSeq_closed n]
    omega
  · intro n
    rw [waitSeq_closed n, waitSeq_closed (n + 1)]
    omega

/-- C10: whenever `QueueStepExecutor.runJob` returns normally (the submission
yielded a job id that is neither missing nor `UNKNOWN_JOBID`), the returned
value is the constant `STATUS_RUNNING`, whatever statuses the polls
reported. -/
theorem C10_queue_runJob_returns_running
    (jobid : Option Int) (poll : Nat → Status) (fuel : Nat)
    (out : RunJobResult) (h : queueRunJob jobid poll fuel = some out) :
    out.status = Status.running := by
  cases jobid with
  | none => simp [queueRunJob] at h
  | some j =>
    simp only [queueRunJob] at h
    by_cases hj : j == UNKNOWN_JOBID
    · rw [if_pos hj] at h
      exact Option.noConfusion h
    · rw [if_neg hj] at h
      have hout := Option.some.inj h
      rw [← hout]

theorem C10_queue_runJob_returns_running_witness :
    queueRunJob (some 7) (fun _ => Status.finished) 5 =
      some { status := Status.running, polls := 0, finalWait := 3 }
    ∧ ({ status := Status.running, polls := 0, finalWait := 3 :
        RunJobResult }).status = Status.running :=
  ⟨by decide,
   C10_queue_runJob_returns_running (some 7) (fun _ => Status.finished) 5
     { status := Status.running, polls := 0, finalWait := 3 } (by decide)⟩

/-! ## Project scheduler (`pyworkflow/project/project.py`)

A protocol run is modelled by its id, status, the ids of the protocols whose
outputs its input pointers resolve to (the runs-graph parents), and its
working directory. -/

structure RunProt where
  id : Nat
  status : Status
  inputs : List Nat
  workingDir : List Char
deriving DecidableEq, Repr

/-- Modelled from the spec: `Node.getChilds` of the graph primitive
(`pyworkflow/utils/graph.py`, not part of the provided sources) enumerates the
node's direct children; the recursive walk is the separate `iterChilds`.
The runs-graph edge A -> B exists iff an input pointer of B resolves to an
output of A (`Project.getGraphFromRuns`, project.py:1437-1490). -/
def getChilds (runs : List RunProt) (p : RunProt) : List RunProt :=
  runs.filter (fun q => q.inputs.contains p.id)

/-- The transitive descendant set named by the spec: ids reachable in the
runs graph from `acc` through input-pointer edges (defined here to state the
claims; the source has no such closure in the dependency check). -/
def descendantsGo (runs : List RunProt) : Nat → List Nat → List Nat
  | 0, acc => acc
  | fuel + 1, acc =>
    let next := (runs.filter (fun q =>
      (q.inputs.any (fun i => acc.contains i)) && !(acc.contains q.id))).map
        (fun q => q.id)
    if next.isEmpty then acc else descendantsGo runs fuel (acc ++ next)

def descendantIds (runs : List RunProt) (startIds : List Nat) : List Nat :=
  descendantsGo runs runs.length startIds

/-- `Project.__protocolInList` (project.py:772-777). -/
def protocolInList (prot : RunProt) (protocols : List RunProt) : Bool :=
  protocols.any (fun p => p.id == prot.id)

/-- `Project.__validDependency` (project.py:779-784): the child blocks the
modification when it is not in the action set and is neither SAVED nor
SCHEDULED. -/
def validDependency (child : RunProt) (protocols : List RunProt) : Bool :=
  !(protocolInList child protocols) && !(child.status == Status.saved) &&
    !(child.status == Status.scheduled)

/-- One iteration of the loop in `Project._getProtocolsDependencies`
(project.py:789-797): if the protocol has a node in the runs graph, collect
the ids of its direct children that are valid dependencies w.r.t. the full
action set `pset` and, when some exist, append the `(protocol id, child ids)`
entry to the error. -/
def depStep (runs : List RunProt) (pset : List RunProt)
    (error : List (Nat × List Nat)) (prot : RunProt) : List (Nat × List Nat) :=
  if runs.any (fun r => r.id == prot.id) then
    let childs := ((getChilds runs prot).filter
      (fun c => validDependency c pset)).map (fun c => c.id)
    if childs.isEmpty then error else error ++ [(prot.id, childs)]
  else error

/-- `Project._getProtocolsDependencies` (project.py:786-798), modelled as the
list of `(protocol id, referring child ids)` pairs the error message is built
from; the message is nonempty exactly when this list is. -/
def getProtocolsDependencies (runs : List RunProt) (protocols : List RunProt) :
    List (Nat × List Nat) :=
  protocols.foldl (depStep runs protocols) []

/-- Exception kinds raised by the modification checks:
`ModificationNotAllowedException` (project.py:1715) from the dependency check
(project.py:811) or from the status check in `saveProtocol`
(project.py:1243); the read-only check raises a plain `Exception`
(project.py:818), which is *not* a `ModificationNotAllowedException`. -/
inductive ProjError where
  | readOnlyMode
  | modificationNotAllowedDeps (refs : List (Nat × List Nat))
  | modificationNotAllowedStatus (s : Status)
deriving DecidableEq, Repr

instance {ε α : Type} [DecidableEq ε] [DecidableEq α] :
    DecidableEq (Except ε α) := fun a b =>
  match a, b with
  | Except.error e, Except.error e' =>
    if h : e = e' then Decidable.isTrue (by rw [h])
    else Decidable.isFalse (fun hc => h (Except.error.inj hc))
  | Except.ok v, Except.ok v' =>
    if h : v = v' then Decidable.isTrue (by rw [h])
    else Decidable.isFalse (fun hc => h (Except.ok.inj hc))
  | Except.error e, Except.ok v => Decidable.isFalse (fun hc => Except.noConfusion hc)
  | Except.ok v, Except.error e => Decidable.isFalse (fun hc => Except.noConfusion hc)

def isModificationNotAllowed : ProjError → Bool
  | ProjError.readOnlyMode => false
  | ProjError.modificationNotAllowedDeps _ => true
  | ProjError.modificationNotAllowedStatus _ => true

/-- `Project._checkModificationAllowed` (project.py:813-820):
read-only check first, then `_checkProtocolsDependencies`
(project.py:800-811). -/
def checkModificationAllowed (readOnly : Bool) (runs : List RunProt)
    (protocols : List RunProt) : Except ProjError Unit :=
  if readOnly then Except.error ProjError.readOnlyMode
  else
    let error := getProtocolsDependencies runs protocols
    if error.isEmpty then Except.ok ()
    else Except.error (ProjError.modificationNotAllowedDeps error)

/-- `PROJECT_RUNS = 'Runs'` (project.py:54). -/
def PROJECT_RUNS : List Char := ['R', 'u', 'n', 's']

structure DeleteOutcome where
  remaining : List RunProt
  removedDirs : List (List Char)
deriving DecidableEq, Repr

/-- `Project.deleteProtocol` (project.py:855-870): the modification check
runs first (raising before anything is mutated); then each protocol's
relations and database row are deleted, and its working directory is removed
from disk only when the stored path starts with `'Runs'`
(project.py:865-868). -/
def deleteProtocol (readOnly : Bool) (runs : List RunProt)
    (protocols : List RunProt) : Except ProjError DeleteOutcome :=
  match checkModificationAllowed readOnly runs protocols with
  | Except.error e => Except.error e
  | Except.ok _ =>
    Except.ok
      { remaining := runs.filter
          (fun r => !(protocols.any (fun p => p.id == r.id))),
        removedDirs := (protocols.filter
          (fun p => PROJECT_RUNS.isPrefixOf p.workingDir)).map
            (fun p => p.workingDir) }

/-- `Project.saveProtocol` (project.py:1238-1250): modification check, then
the status check — RUNNING, FINISHED or LAUNCHED protocols cannot be saved —
then the protocol is set SAVED and stored.  On any error nothing is
persisted. -/
def saveProtocol (readOnly : Bool) (runs : List RunProt) (protocol : RunProt) :
    Except ProjError RunProt :=
  match checkModificationAllowed readOnly runs [protocol] with
  | Except.error e => Except.error e
  | Except.ok _ =>
    if protocol.status == Status.running || protocol.status == Status.finished
        || protocol.status == Status.launched then
      Except.error (ProjError.modificationNotAllowedStatus protocol.status)
    else Except.ok { protocol with status := Status.saved }

/-! ### Lemmas about the dependency check -/

/-- The error accumulator of `_getProtocolsDependencies` only grows. -/
theorem foldl_depStep_mono (runs pset : List RunProt) :
    ∀ (l : List RunProt) (acc : List (Nat × List Nat)) (x : Nat × List Nat),
      x ∈ acc → x ∈ l.foldl (depStep runs pset) acc := by
  intro l
  induction l with
  | nil => intro acc x hx; exact hx
  | cons prot l ih =>
    intro acc x hx
    show x ∈ l.foldl (depStep runs pset) (depStep runs pset acc prot)
    apply ih
    unfold depStep
    by_cases h1 : runs.any (fun r => r.id == prot.id)
    · rw [if_pos h1]
      by_cases h2 : (((getChilds runs prot).filter
          (fun c => validDependency c pset)).map (fun c => c.id)).isEmpty
      · rw [if_pos h2]; exact hx
      · rw [if_neg h2]; exact List.mem_append_left _ hx
    · rw [if_neg h1]; exact hx

/-- If a protocol of the action set is in the runs graph and has a valid
referring child, `_getProtocolsDependencies` reports it. -/
theorem getProtocolsDependencies_reports (runs pset : List RunProt) :
    ∀ (l : List RunProt) (acc : List (Nat × List Nat)) (p : RunProt),
      p ∈ l → runs.any (fun r => r.id == p.id) = true →
      ¬ (((getChilds runs p).filter
        (fun c => validDependency c pset)).map (fun c => c.id)).isEmpty = true →
      (p.id, ((getChilds runs p).filter
        (fun c => validDependency c pset)).map (fun c => c.id)) ∈
          l.foldl (depStep runs pset) acc := by
  intro l
  induction l with
  | nil => intro acc p hp; exact absurd hp (List.not_mem_nil p)
  | cons prot l ih =>
    intro acc p hp hin hne
    rcases List.mem_cons.mp hp with heq | hmem
    · subst heq
      show _ ∈ l.foldl (depStep runs pset) (depStep runs pset acc p)
      apply foldl_depStep_mono
      unfold depStep
      rw [if_pos hin, if_neg hne]
      exact List.mem_append_right _ (List.mem_singleton.mpr rfl)
    · exact ih _ p hmem hin hne

/-- With a nonempty dependency report, `_checkModificationAllowed` on a
non-read-only project raises the `ModificationNotAllowed` error carrying it. -/
theorem checkModificationAllowed_error (runs pset : List RunProt)
    (h : getProtocolsDependencies runs pset ≠ []) :
    checkModificationAllowed false runs pset =
      Except.error (ProjError.modificationNotAllowedDeps
        (getProtocolsDependencies runs pset)) := by
  unfold checkModificationAllowed
  cases hdd : getProtocolsDependencies runs pset with
  | nil => exact absurd hdd h
  | cons a l => simp [hdd]

theorem deleteProtocol_blocked (runs pset : List RunProt)
    (h : getProtocolsDependencies runs pset ≠ []) :
    deleteProtocol false runs pset =
      Except.error (ProjError.modificationNotAllowedDeps
        (getProtocolsDependencies runs pset)) := by
  unfold deleteProtocol
  rw [checkModificationAllowed_error runs pset h]

theorem saveProtocol_blocked_deps (runs : List RunProt) (p : RunProt)
    (h : getProtocolsDependencies runs [p] ≠ []) :
    saveProtocol false runs p =
      Except.error (ProjError.modificationNotAllowedDeps
        (getProtocolsDependencies runs [p])) := by
  unfold saveProtocol
  rw [checkModificationAllowed_error runs [p] h]

/-- C2 (amended): for a non-read-only project, if some protocol `p` of the
action set has a *direct* runs-graph child `c` that is outside the action set
and neither SAVED nor SCHEDULED, then `deleteProtocol` on the set and
`saveProtocol(p)` both fail with a `ModificationNotAllowed` whose reference
list names `p` and the referring run `c`, and — the checks raising before any
mutation — nothing is deleted or stored.  (The source checks only direct
children of the action set, not the transitive descendant closure the claim
describes; see the counterexample.) -/
theorem C2_dependency_check
    (runs protocols : List RunProt) (p c : RunProt)
    (hp : p ∈ protocols) (hpin : runs.any (fun r => r.id == p.id) = true)
    (hc : c ∈ getChilds runs p)
    (hvalid : validDependency c protocols = true)
    (hvalidSingle : validDependency c [p] = true) :
    (∃ refs, deleteProtocol false runs protocols =
        Except.error (ProjError.modificationNotAllowedDeps refs) ∧
        ∃ e ∈ refs, e.1 = p.id ∧ c.id ∈ e.2)
    ∧ (∃ refs, saveProtocol false runs p =
        Except.error (ProjError.modificationNotAllowedDeps refs) ∧
        ∃ e ∈ refs, e.1 = p.id ∧ c.id ∈ e.2) := by
  have hchild : ∀ (pset : List RunProt), validDependency c pset = true →
      c.id ∈ ((getChilds runs p).filter
        (fun q => validDependency q pset)).map (fun q => q.id) := by
    intro pset hv
    exact List.mem_map_of_mem _ (List.mem_filter.mpr ⟨hc, hv⟩)
  have hne : ∀ (pset : List RunProt), validDependency c pset = true →
      ¬ (((getChilds runs p).filter
        (fun q => validDependency q pset)).map (fun q => q.id)).isEmpty = true := by
    intro pset hv hemp
    rw [List.isEmpty_iff] at hemp
    have := hchild pset hv
    rw [hemp] at this
    exact absurd this (List.not_mem_nil c.id)
  constructor
  · have hrep := getProtocolsDependencies_reports runs protocols protocols [] p
      hp hpin (hne protocols hvalid)
    have hdeps : getProtocolsDependencies runs protocols ≠ [] := by
      intro hnil
      unfold getProtocolsDependencies at hnil
      rw [hnil] at hrep
      exact absurd hrep (List.not_mem_nil _)
    exact ⟨getProtocolsDependencies runs protocols,
      deleteProtocol_blocked runs protocols hdeps,
      _, hrep, rfl, hchild protocols hvalid⟩
  · have hrep := getProtocolsDependencies_reports runs [p] [p] [] p
      (List.mem_singleton.mpr rfl) hpin (hne [p] hvalidSingle)
    have hdeps : getProtocolsDependencies runs [p] ≠ [] := by
      intro hnil
      unfold getProtocolsDependencies at hnil
      rw [hnil] at hrep
      exact absurd hrep (List.not_mem_nil _)
    exact ⟨getProtocolsDependencies runs [p],
      saveProtocol_blocked_deps runs p hdeps,
      _, hrep, rfl, hchild [p] hvalidSingle⟩

/-- C2 witness data: an ABORTED parent with one RUNNING direct child. -/
def c2P : RunProt := ⟨1, Status.aborted, [], ['R', 'u', 'n', 's', '/', 'a']⟩

def c2C : RunProt := ⟨2, Status.running, [1], ['R', 'u', 'n', 's', '/', 'b']⟩

def c2Runs : List RunProt := [c2P, c2C]

theorem C2_dependency_check_witness :
    (∃ refs, deleteProtocol false c2Runs [c2P] =
        Except.error (ProjError.modificationNotAllowedDeps refs) ∧
        ∃ e ∈ refs, e.1 = c2P.id ∧ c2C.id ∈ e.2)
    ∧ (∃ refs, saveProtocol false c2Runs c2P =
        Except.error (ProjError.modificationNotAllowedDeps refs) ∧
        ∃ e ∈ refs, e.1 = c2P.id ∧ c2C.id ∈ e.2) :=
  C2_dependency_check c2Runs [c2P] c2P c2C (by decide) (by decide)
    (by decide) (by decide) (by decide)

/-- C2 counterexample data: chain P -> Q -> R where the middle run Q is
SAVED but the transitive descendant R is RUNNING. -/
def c2xP : RunProt := ⟨1, Status.aborted, [], ['R', 'u', 'n', 's', '/', 'p']⟩

def c2xQ : RunProt := ⟨2, Status.saved, [1], ['R', 'u', 'n', 's', '/', 'q']⟩

def c2xR : RunProt := ⟨3, Status.running, [2], ['R', 'u', 'n', 's', '/', 'r']⟩

def c2xRuns : List RunProt := [c2xP, c2xQ, c2xR]

/-- C2 counterexample: the transitive descendant set of {P} contains the
RUNNING run R, which is not in the action set — the claim demands that
`deleteProtocol(P)` and `saveProtocol(P)` fail — yet both succeed, because
the source checks only direct children (project.py:792) and P's only direct
child Q is SAVED. -/
theorem C2_dependency_check_counterexample :
    (3 ∈ descendantIds c2xRuns [1])
    ∧ c2xR.status = Status.running
    ∧ protocolInList c2xR [c2xP] = false
    ∧ deleteProtocol false c2xRuns [c2xP] =
        Except.ok ⟨[c2xQ, c2xR], [c2xP.workingDir]⟩
    ∧ saveProtocol false c2xRuns c2xP =
        Except.ok { c2xP with status := Status.saved } := by
  decide

/-- C4 (amended): on a non-read-only project, a `saveProtocol` call on a
protocol whose status is RUNNING, FINISHED or LAUNCHED fails with a
`ModificationNotAllowed` exception (from the dependency check or from the
status check at project.py:1241-1244), and nothing is persisted — the raise
happens before the status change and the store.  On a read-only project the
call fails with the plain read-only error instead, which is not a
`ModificationNotAllowedException` (see the counterexample). -/
theorem C4_save_active_fails (runs : List RunProt) (p : RunProt)
    (h : p.status = Status.running ∨ p.status = Status.finished ∨
         p.status = Status.launched) :
    ∃ e, saveProtocol false runs p = Except.error e ∧
      isModificationNotAllowed e = true := by
  unfold saveProtocol
  cases hchk : checkModificationAllowed false runs [p] with
  | error e =>
    refine ⟨e, rfl, ?_⟩
    unfold checkModificationAllowed at hchk
    rw [if_neg (by simp)] at hchk
    by_cases hemp : (getProtocolsDependencies runs [p]).isEmpty
    · simp only [hemp, if_true] at hchk
      exact Except.noConfusion hchk
    · simp only [hemp, if_false] at hchk
      have := Except.error.inj hchk
      rw [← this]
      rfl
  | ok u =>
    have hcond : (p.status == Status.running || p.status == Status.finished
        || p.status == Status.launched) = true := by
      rcases h with h | h | h <;> rw [h] <;> rfl
    rw [if_pos hcond]
    exact ⟨ProjError.modificationNotAllowedStatus p.status, rfl, rfl⟩

def c4P : RunProt := ⟨5, Status.running, [], ['R', 'u', 'n', 's', '/', 'x']⟩

theorem C4_save_active_fails_witness :
    ∃ e, saveProtocol false [c4P] c4P = Except.error e ∧
      isModificationNotAllowed e = true :=
  C4_save_active_fails [c4P] c4P (Or.inl rfl)

def c4xP : RunProt := ⟨6, Status.running, [], ['R', 'u', 'n', 's', '/', 'y']⟩

/-- C4 counterexample: on a read-only project, `saveProtocol` on a RUNNING
protocol raises the plain read-only `Exception` of project.py:818, not a
`ModificationNotAllowedException`, so the claim's "fails by raising
ModificationNotAllowed" does not hold for every call. -/
theorem C4_save_active_fails_counterexample :
    c4xP.status = Status.running
    ∧ saveProtocol true [c4xP] c4xP = Except.error ProjError.readOnlyMode
    ∧ isModificationNotAllowed ProjError.readOnlyMode = false := by
  decide

/-! ## `Project.stopProtocol` (project.py:733-746) -/

structure ProtState where
  status : Status
  storedLocal : Bool
  storedProject : Bool
deriving DecidableEq, Repr

/-- Outcome of a Python block that may raise: the state after the block plus
whether an exception propagates. -/
inductive PyResult (σ : Type) where
  | ok (s : σ)
  | raised (s : σ)
deriving DecidableEq, Repr

def PyResult.state {σ : Type} : PyResult σ → σ
  | PyResult.ok s => s
  | PyResult.raised s => s

def PyResult.isRaised {σ : Type} : PyResult σ → Bool
  | PyResult.ok _ => false
  | PyResult.raised _ => true

/-- Python `try/finally` where the `except` clause re-raises: the `finally`
action runs on both paths and the exception, if any, still propagates. -/
def tryFinallyReraise {σ : Type} (body : σ → PyResult σ) (fin : σ → σ)
    (s : σ) : PyResult σ :=
  match body s with
  | PyResult.ok s' => PyResult.ok (fin s')
  | PyResult.raised s' => PyResult.raised (fin s')

structure StopState where
  prot : ProtState
  stopCalled : Bool
deriving DecidableEq, Repr

/-- `Project.stopProtocol` (project.py:733-746): inside `try`, the
launcher-level `pwprot.stop` is invoked only when the protocol's status is in
`ACTIVE_STATUS` (line 736-737); an exception from it is logged and re-raised
(line 738-740); the `finally` block (line 741-746) always sets the protocol
ABORTED, stores it into its own database (`protocol._store()`) and into the
project store (`_storeProtocol`, which skips the write in read-only mode).
`stopRaises` says whether the launcher stop raises. -/
def stopProtocol (readOnly stopRaises : Bool) (s : ProtState) :
    PyResult StopState :=
  tryFinallyReraise
    (fun st =>
      if st.prot.status ∈ ACTIVE_STATUS then
        if stopRaises then PyResult.raised { st with stopCalled := true }
        else PyResult.ok { st with stopCalled := true }
      else PyResult.ok st)
    (fun st => { st with prot := { st.prot with
        status := Status.aborted,
        storedLocal := true,
        storedProject := !readOnly } })
    { prot := s, stopCalled := false }

/-- C8: in every run of `stopProtocol` the launcher stop is invoked exactly
when the protocol was in the active set; the protocol always ends ABORTED
and stored to its own database — also when it was not active and when the
launcher stop raised (the exception still propagates, but the `finally`
block has run); the project-store write happens unless the project is
read-only. -/
theorem C8_stopProtocol_always_aborts (readOnly stopRaises : Bool)
    (s : ProtState) :
    (stopProtocol readOnly stopRaises s).state.prot.status = Status.aborted
    ∧ (stopProtocol readOnly stopRaises s).state.prot.storedLocal = true
    ∧ ((stopProtocol readOnly stopRaises s).state.stopCalled = true ↔
        s.status ∈ ACTIVE_STATUS)
    ∧ ((stopProtocol readOnly stopRaises s).isRaised = true ↔
        (s.status ∈ ACTIVE_STATUS ∧ stopRaises = true))
    ∧ (stopProtocol readOnly stopRaises s).state.prot.storedProject =
        !readOnly := by
  unfold stopProtocol tryFinallyReraise
  by_cases hact : s.status ∈ ACTIVE_STATUS <;> cases stopRaises <;>
    simp [PyResult.state, PyResult.isRaised, hact]

/-- C9: whenever `deleteProtocol` succeeds, every protocol of the action set
is removed from the database, its working directory is removed from disk
exactly when its stored path starts with `'Runs'`, and consequently every
removed directory lies under the `Runs` prefix — `deleteProtocol` never
deletes files outside the project's Runs area. -/
theorem C9_delete_workingDir_safety (readOnly : Bool)
    (runs protocols : List RunProt) (out : DeleteOutcome)
    (h : deleteProtocol readOnly runs protocols = Except.ok out) :
    (∀ p ∈ protocols,
      (p.workingDir ∈ out.removedDirs ↔
        PROJECT_RUNS.isPrefixOf p.workingDir = true)
      ∧ ∀ r ∈ out.remaining, r.id ≠ p.id)
    ∧ (∀ d ∈ out.removedDirs, PROJECT_RUNS.isPrefixOf d = true) := by
  unfold deleteProtocol at h
  cases hchk : checkModificationAllowed readOnly runs protocols with
  | error e => rw [hchk] at h; exact Except.noConfusion h
  | ok u =>
    rw [hchk] at h
    have hout := Except.ok.inj h
    constructor
    · intro p hp
      constructor
      · constructor
        · intro hd
          rw [← hout] at hd
          simp only [DeleteOutcome.mk.injEq] at hd
          rcases List.mem_map.mp hd with ⟨q, hq, hwd⟩
          have := (List.mem_filter.mp hq).2
          rw [← hwd]
          exact this
        · intro hpref
          rw [← hout]
          exact List.mem_map_of_mem _ (List.mem_filter.mpr ⟨hp, hpref⟩)
      · intro r hr
        rw [← hout] at hr
        have hcond := (List.mem_filter.mp hr).2
        intro heq
        rw [Bool.not_eq_true', List.any_eq_false] at hcond
        have := hcond p hp
        rw [heq] at this
        simp at this
    · intro d hd
      rw [← hout] at hd
      rcases List.mem_map.mp hd with ⟨q, hq, hwd⟩
      have := (List.mem_filter.mp hq).2
      rw [← hwd]
      exact this

def c9A : RunProt := ⟨1, Status.finished, [], ['R', 'u', 'n', 's', '/', 'a']⟩

def c9B : RunProt := ⟨2, Status.failed, [], ['/', 't', 'm', 'p', '/', 'b']⟩

theorem C9_delete_workingDir_safety_witness :
    (∀ p ∈ [c9A, c9B],
      (p.workingDir ∈ (DeleteOutcome.mk [] [c9A.workingDir]).removedDirs ↔
        PROJECT_RUNS.isPrefixOf p.workingDir = true)
      ∧ ∀ r ∈ (DeleteOutcome.mk [] [c9A.workingDir]).remaining, r.id ≠ p.id)
    ∧ (∀ d ∈ (DeleteOutcome.mk [] [c9A.workingDir]).removedDirs,
        PROJECT_RUNS.isPrefixOf d = true) :=
  C9_delete_workingDir_safety false [c9A, c9B] [c9A, c9B]
    (DeleteOutcome.mk [] [c9A.workingDir]) (by decide)

/-! ## `Project._updateProtocol` (project.py:649-731) -/

/-- The documented return codes of `_updateProtocol` (constants of the
top-level `pyworkflow` package, named in the spec). -/
inductive UpdateResult where
  | updated
  | notUpdatedReadOnly
  | notUpdatedUnnecessary
  | notUpdatedError
deriving DecidableEq, Repr

structure UpdateState where
  failedMsg : Option (List Char)
  sleeps : Nat
  stored : Bool
deriving DecidableEq, Repr

/-- `Project._updateProtocol` (project.py:649-731).  `readErr k` is the
exception raised by the read of the protocol's own database
(`getProtocolFromDb`) on the attempt with `tries = k`, `none` if that read
succeeds.  The state records whether the protocol was marked FAILED
(`setFailed`, line 719), how many 0.5 s sleeps ran (line 727) and whether
`mapper.store` ran.  `fuel` bounds the recursion depth: the code enters with
`tries = 0` and stops recursing at `tries = 3`, so depth 4 covers every call
actually made; the fuel-0 branch is unreachable from `updateProtocol`.
Faithfully to line 728, the recursive call's return value is DISCARDED and
control falls through to `return pw.PROTOCOL_UPDATED` (line 731). -/
def updateProtocolGo (readOnly upToDate : Bool)
    (readErr : Nat → Option (List Char)) :
    Nat → Nat → UpdateState → UpdateState × UpdateResult
  | 0, _, st => (st, UpdateResult.updated)
  | fuel + 1, tries, st =>
    if readOnly then (st, UpdateResult.notUpdatedReadOnly)
    else if upToDate then (st, UpdateResult.notUpdatedUnnecessary)
    else match readErr tries with
      | none => ({ st with stored := true }, UpdateResult.updated)
      | some ex =>
        if tries == 3 then
          ({ st with failedMsg := some ex, stored := true },
           UpdateResult.notUpdatedError)
        else
          let st' := { st with sleeps := st.sleeps + 1 }
          let r := updateProtocolGo readOnly upToDate readErr fuel (tries + 1) st'
          (r.1, UpdateResult.updated)

/-- The entry call `_updateProtocol(protocol)` with `tries = 0`
(e.g. project.py:1357). -/
def updateProtocol (readOnly upToDate : Bool)
    (readErr : Nat → Option (List Char)) (st : UpdateState) :
    UpdateState × UpdateResult :=
  updateProtocolGo readOnly upToDate readErr 4 0 st

/-- C6: when the read of the protocol's own database fails on every attempt,
the update is retried three times with a 0.5 s sleep before each retry and
the protocol is marked FAILED with the error text — but the entry call
returns `PROTOCOL_UPDATED` (the `UPDATED` code), not `NOT_UPDATED_ERROR` as
the claim states: only the innermost recursive invocation (`tries = 3`)
produces `NOT_UPDATED_ERROR`, and project.py:728 discards that value before
falling through to `return pw.PROTOCOL_UPDATED`. -/
theorem C6_updateProtocol_return_code :
    (updateProtocol false false (fun _ => some ['b', 'o', 'o', 'm'])
        ⟨none, 0, false⟩).2 = UpdateResult.updated
    ∧ (updateProtocol false false (fun _ => some ['b', 'o', 'o', 'm'])
        ⟨none, 0, false⟩).2 ≠ UpdateResult.notUpdatedError
    ∧ (updateProtocol false false (fun _ => some ['b', 'o', 'o', 'm'])
        ⟨none, 0, false⟩).1.failedMsg = some ['b', 'o', 'o', 'm']
    ∧ (updateProtocol false false (fun _ => some ['b', 'o', 'o', 'm'])
        ⟨none, 0, false⟩).1.sleeps = 3
    ∧ (updateProtocolGo false false (fun _ => some ['b', 'o', 'o', 'm'])
        1 3 ⟨none, 0, false⟩).2 = UpdateResult.notUpdatedError := by
  decide

/-! ## Workflow export / import (`Project.getProtocolsDict`,
`Project.exportProtocols`, `Project.loadProtocols`, project.py:1064-1236)

Python strings are `List Char`; `str(int)` is `renderNat`; `str.split('.')`
is `splitOnDot`; building `"<srcId>.<outKey>"` is `intercalateDot`. -/

def digitChar (d : Nat) : Char := Char.ofNat (48 + d)

/-- Python `str(n)` for a non-negative integer: decimal digits. -/
def renderNat (n : Nat) : List Char :=
  if h : n < 10 then [digitChar n]
  else renderNat (n / 10) ++ [digitChar (n % 10)]
termination_by n
decreasing_by exact Nat.div_lt_self (by omega) (by omega)

def parseNat (s : List Char) : Nat :=
  s.foldl (fun a c => a * 10 + (c.toNat - 48)) 0

/-- Python `s.split('.')`: cut at every dot, keeping empty pieces. -/
def splitOnDot : List Char → List (List Char)
  | [] => [[]]
  | c :: cs =>
    if c = '.' then [] :: splitOnDot cs
    else
      match splitOnDot cs with
      | [] => [[c]]
      | h :: t => (c :: h) :: t

/-- Python `'.'.join(parts)`. -/
def intercalateDot : List (List Char) → List Char
  | [] => []
  | [p] => p
  | p :: ps => p ++ '.' :: intercalateDot ps

/-- `part` contains no dot. -/
def strDotFree (part : List Char) : Bool := part.all (fun c => !(c == '.'))

theorem digitChar_val : ∀ d, d < 10 → (digitChar d).toNat - 48 = d := by decide

theorem digitChar_ne_dot : ∀ d, d < 10 → digitChar d ≠ '.' := by decide

theorem parseNat_append (l : List Char) (c : Char) :
    parseNat (l ++ [c]) = parseNat l * 10 + (c.toNat - 48) := by
  unfold parseNat
  rw [List.foldl_append]
  rfl

theorem parseNat_renderNat (n : Nat) : parseNat (renderNat n) = n := by
  induction n using Nat.strong_induction_on with
  | _ n ih =>
    unfold renderNat
    by_cases h : n < 10
    · rw [dif_pos h]
      show parseNat [digitChar n] = n
      unfold parseNat
      show 0 * 10 + ((digitChar n).toNat - 48) = n
      rw [digitChar_val n h]
      omega
    · rw [dif_neg h, parseNat_append,
        ih (n / 10) (Nat.div_lt_self (by omega) (by omega)),
        digitChar_val (n % 10) (Nat.mod_lt n (by omega))]
      omega

theorem renderNat_inj (m n : Nat) (h : renderNat m = renderNat n) : m = n := by
  have := congrArg parseNat h
  rwa [parseNat_renderNat, parseNat_renderNat] at this

theorem renderNat_ne_nil (n : Nat) : renderNat n ≠ [] := by
  unfold renderNat
  by_cases h : n < 10
  · rw [dif_pos h]; exact List.cons_ne_nil _ _
  · rw [dif_neg h]
    intro hc
    rcases List.append_eq_nil.mp hc with ⟨_, h2⟩
    exact List.cons_ne_nil _ _ h2

theorem renderNat_dotFree (n : Nat) : strDotFree (renderNat n) = true := by
  induction n using Nat.strong_induction_on with
  | _ n ih =>
    unfold renderNat
    by_cases h : n < 10
    · rw [dif_pos h]
      unfold strDotFree
      rw [List.all_eq_true]
      intro c hc
      have : c = digitChar n := List.mem_singleton.mp hc
      subst this
      have hne := digitChar_ne_dot n h
      simp [hne]
    · rw [dif_neg h]
      unfold strDotFree
      rw [List.all_eq_true]
      intro c hc
      rcases List.mem_append.mp hc with h1 | h2
      · have := ih (n / 10) (Nat.div_lt_self (by omega) (by omega))
        unfold strDotFree at this
        rw [List.all_eq_true] at this
        exact this c h1
      · have : c = digitChar (n % 10) := List.mem_singleton.mp h2
        subst this
        have hne := digitChar_ne_dot (n % 10) (Nat.mod_lt n (by omega))
        simp [hne]

theorem splitOnDot_ne_nil (s : List Char) : splitOnDot s ≠ [] := by
  cases s with
  | nil => simp [splitOnDot]
  | cons c cs =>
    unfold splitOnDot
    by_cases h : c = '.'
    · rw [if_pos h]; exact List.cons_ne_nil _ _
    · rw [if_neg h]
      cases hs : splitOnDot cs with
      | nil => exact List.cons_ne_nil _ _
      | cons a l => exact List.cons_ne_nil _ _

/-- Splitting a dot-free block followed by a rest prepends the block to the
first piece of the rest's split. -/
theorem splitOnDot_dotfree_append (p : List Char) (hp : strDotFree p = true) :
    ∀ (rest : List Char) (h : List Char) (t : List (List Char)),
      splitOnDot rest = h :: t → splitOnDot (p ++ rest) = (p ++ h) :: t := by
  induction p with
  | nil => intro rest h t hr; simpa using hr
  | cons c p ih =>
    intro rest h t hr
    unfold strDotFree at hp
    rw [List.all_eq_true] at hp
    have hc : ¬ c = '.' := by
      have := hp c (List.mem_cons_self c p)
      intro hcc
      rw [hcc] at this
      simp at this
    have hp' : strDotFree p = true := by
      unfold strDotFree
      rw [List.all_eq_true]
      intro x hx
      exact hp x (List.mem_cons_of_mem c hx)
    show splitOnDot (c :: (p ++ rest)) = ((c :: p) ++ h) :: t
    unfold splitOnDot
    rw [if_neg hc, ih hp' rest h t hr]
    rfl

/-- Round trip: joining dot-free pieces with dots and splitting again gives
back the pieces. -/
theorem splitOnDot_intercalateDot :
    ∀ (ps : List (List Char)), ps ≠ [] →
      (∀ p ∈ ps, strDotFree p = true) →
      splitOnDot (intercalateDot ps) = ps := by
  intro ps
  induction ps with
  | nil => intro h; exact absurd rfl h
  | cons p ps ih =>
    intro _ hdot
    cases ps with
    | nil =>
      show splitOnDot (intercalateDot [p]) = [p]
      have hrw : intercalateDot [p] = p := rfl
      rw [hrw]
      have := splitOnDot_dotfree_append p (hdot p (List.mem_cons_self p []))
        [] [] [] rfl
      simpa using this
    | cons q ps' =>
      have hrw : intercalateDot (p :: q :: ps') =
          p ++ '.' :: intercalateDot (q :: ps') := rfl
      rw [hrw]
      have hih : splitOnDot (intercalateDot (q :: ps')) = q :: ps' :=
        ih (List.cons_ne_nil q ps')
          (fun x hx => hdot x (List.mem_cons_of_mem p hx))
      have hdotsplit : splitOnDot ('.' :: intercalateDot (q :: ps')) =
          [] :: (q :: ps') := by
        unfold splitOnDot
        rw [if_pos rfl, hih]
      have := splitOnDot_dotfree_append p (hdot p (List.mem_cons_self p _))
        ('.' :: intercalateDot (q :: ps')) [] (q :: ps') hdotsplit
      rw [List.append_nil] at this
      exact this

/-- A definition-parameter value of a protocol: a plain scalar, a `Pointer`
(target protocol id plus extended path, the dotted attribute suffix kept as
its parts), or a `PointerList`. -/
inductive ParamValue where
  | scalar (v : List Char)
  | pointer (srcId : Nat) (extParts : List (List Char))
  | pointerList (ptrs : List (Nat × List (List Char)))
deriving DecidableEq, Repr

/-- A protocol as the export sees it: id, class name and definition
parameters. -/
structure Proto where
  id : Nat
  className : List Char
  params : List (List Char × ParamValue)
deriving DecidableEq, Repr

def defaultProto : Proto := ⟨0, [], []⟩

/-- Values as they appear in the exported JSON: strings, or arrays of
strings for `PointerList` parameters. -/
inductive SerValue where
  | str (s : List Char)
  | strList (ss : List (List Char))
deriving DecidableEq, Repr

/-- `'%s.%s' % (protId, oKey)` (project.py:1104-1105), equivalently
`pointer.getUniqueId()`: the serialized form `"<srcId>.<outKey>"`. -/
def serializePointer (srcId : Nat) (extParts : List (List Char)) : List Char :=
  intercalateDot (renderNat srcId :: extParts)

/-- Serialization of one definition parameter in `getProtocolsDict`
(project.py:1098-1105): pointers become `"<srcId>.<outKey>"` strings,
`PointerList` values become arrays of such strings (`p.getUniqueId()`),
plain parameters keep their value.  (`getDefinitionDict` itself is outside
the provided sources; per the spec, pointer parameters serialize in exactly
this form.) -/
def serializeParam : ParamValue → SerValue
  | ParamValue.scalar v => SerValue.str v
  | ParamValue.pointer s e => SerValue.str (serializePointer s e)
  | ParamValue.pointerList ps =>
    SerValue.strList (ps.map (fun pr => serializePointer pr.1 pr.2))

/-- One entry of the exported workflow JSON: `object.id`,
`object.className` and the serialized parameters. -/
structure ProtoDict where
  id : Nat
  className : List Char
  params : List (List Char × SerValue)
deriving DecidableEq, Repr

/-- `Project.getProtocolsDict` (project.py:1064-1107), restricted to the
payload relevant for re-import. -/
def getProtocolsDict (protocols : List Proto) : List ProtoDict :=
  protocols.map (fun p =>
    { id := p.id, className := p.className,
      params := p.params.map (fun q => (q.1, serializeParam q.2)) })

/-- The declared kind of a definition parameter (`attr.isPointer()`,
`isinstance(attr, pwobj.PointerList)` at project.py:1208-1212). -/
inductive ParamKind where
  | scalarK
  | pointerK
  | pointerListK
deriving DecidableEq, Repr

def paramKindOf : ParamValue → ParamKind
  | ParamValue.scalar _ => ParamKind.scalarK
  | ParamValue.pointer _ _ => ParamKind.pointerK
  | ParamValue.pointerList _ => ParamKind.pointerListK

/-- All extended-path parts of a parameter are dot-free (attribute names
never contain `'.'`; the dot is the separator). -/
def paramDotFree : ParamValue → Bool
  | ParamValue.scalar _ => true
  | ParamValue.pointer _ e => e.all strDotFree
  | ParamValue.pointerList ps => ps.all (fun pr => pr.2.all strDotFree)

/-- A parameter value after import: pointers either resolve to the new
target id with the rebuilt extended parts, or to nothing when the source id
was not part of the import (`pointer.set(None)`). -/
inductive ImpValue where
  | scalar (v : List Char)
  | pointer (p : Option (Nat × List (List Char)))
  | pointerList (ps : List (Option (Nat × List (List Char))))
deriving DecidableEq, Repr

structure ImpProto where
  id : Nat
  className : List Char
  params : List (List Char × ImpValue)
deriving DecidableEq, Repr

def defaultImp : ImpProto := ⟨0, [], []⟩

/-- Association lookup with string keys, as `newDict.get(parts[0], None)`
(project.py:1180). -/
def lookupStr (m : List (List Char × Nat)) (k : List Char) : Option Nat :=
  match m with
  | [] => none
  | (k', v) :: rest => if k = k' then some v else lookupStr rest k

/-- `_setPointer` (project.py:1174-1183): skip falsy values, split the
string on `'.'`, look the first part up in `newDict`; when a target is found
the remaining parts become the pointer's extended parts
(`setExtendedParts(parts[1:])`), otherwise the pointer points to nothing. -/
def setPointer (newDict : List (List Char × Nat)) (value : List Char) :
    Option (Nat × List (List Char)) :=
  if value.isEmpty then none
  else
    match lookupStr newDict ((splitOnDot value).headD []) with
    | none => none
    | some target => some (target, (splitOnDot value).tail)

/-- The parameter-update dispatch of the second import pass
(project.py:1203-1229): pointer parameters go through `_setPointer`,
`PointerList` parameters build one pointer per array element, other
parameters keep the plain value. -/
def importParam (newDict : List (List Char × Nat)) (kind : ParamKind) :
    SerValue → ImpValue
  | SerValue.str s =>
    match kind with
    | ParamKind.pointerK => ImpValue.pointer (setPointer newDict s)
    | _ => ImpValue.scalar s
  | SerValue.strList ss =>
    match kind with
    | ParamKind.pointerListK => ImpValue.pointerList (ss.map (setPointer newDict))
    | _ => ImpValue.scalar []

/-- The `newDict` built by the first import pass (project.py:1149-1171):
old-id key (the JSON `object.id`, a string) to the freshly created
protocol. -/
def newDictOf (dicts : List ProtoDict) (freshIds : List Nat) :
    List (List Char × Nat) :=
  (dicts.zip freshIds).map (fun pr => (renderNat pr.1.id, pr.2))

/-- `Project.loadProtocols` (project.py:1135-1236): first pass creates one
new protocol per dict entry (with a fresh id, here supplied positionally by
`freshIds`) and records the old-to-new mapping; the second pass resolves the
pointer-valued parameters through `_setPointer`.  `kindOf` gives each
class's declared parameter kinds (the class definitions live outside this
repository). -/
def loadProtocols (kindOf : List Char → List Char → ParamKind)
    (freshIds : List Nat) (dicts : List ProtoDict) : List ImpProto :=
  let newDict := newDictOf dicts freshIds
  (dicts.zip freshIds).map (fun pr =>
    { id := pr.2, className := pr.1.className,
      params := pr.1.params.map (fun q =>
        (q.1, importParam newDict (kindOf pr.1.className q.1) q.2)) })

/-- Plain association lookup on old ids (spec-side view of `newDict`). -/
def lookupNat : List (Nat × Nat) → Nat → Option Nat
  | [], _ => none
  | (k, v) :: rest, s => if s = k then some v else lookupNat rest s

/-- Modelled from the spec: the expected imported parameter for the
round-trip claim — "the pointer targets the newly created protocol mapped
from `<srcId>` with the remaining parts as extended path".  `pairs` is the
old-id to new-id correspondence. -/
def specImportedParam (pairs : List (Nat × Nat)) : ParamValue → ImpValue
  | ParamValue.scalar v => ImpValue.scalar v
  | ParamValue.pointer s e =>
    ImpValue.pointer ((lookupNat pairs s).map (fun t => (t, e)))
  | ParamValue.pointerList ps =>
    ImpValue.pointerList
      (ps.map (fun pr => (lookupNat pairs pr.1).map (fun t => (t, pr.2))))

/-- The protocol ids a parameter points at (the runs-graph edges it
induces). -/
def paramTargets : ParamValue → List Nat
  | ParamValue.scalar _ => []
  | ParamValue.pointer s _ => [s]
  | ParamValue.pointerList ps => ps.map (fun pr => pr.1)

def impParamTargets : ImpValue → List Nat
  | ImpValue.scalar _ => []
  | ImpValue.pointer none => []
  | ImpValue.pointer (some pr) => [pr.1]
  | ImpValue.pointerList ps => ps.filterMap (fun pr => pr.map (fun x => x.1))

/-- Runs-graph edge `src -> p` in the original protocol list. -/
def protoPointsTo (p : Proto) (srcId : Nat) : Bool :=
  p.params.any (fun q => (paramTargets q.2).contains srcId)

/-- Runs-graph edge `src -> p` among the imported protocols. -/
def impPointsTo (p : ImpProto) (srcId : Nat) : Bool :=
  p.params.any (fun q => (impParamTargets q.2).contains srcId)

/-! ### Lemmas about export / import -/

theorem getD_eq_get {α : Type} (l : List α) (i : Nat) (d : α)
    (h : i < l.length) : l.getD i d = l.get ⟨i, h⟩ := by
  rw [List.getD_eq_getElem?_getD, List.getElem?_eq_getElem h]
  rfl

theorem nodup_get_inj {l : List Nat} (h : l.Nodup) {i j : Nat}
    (hi : i < l.length) (hj : j < l.length)
    (he : l.get ⟨i, hi⟩ = l.get ⟨j, hj⟩) : i = j := by
  exact (List.Nodup.getElem_inj_iff h).mp (by simpa using he)

theorem setPointer_serializePointer (newDict : List (List Char × Nat))
    (s : Nat) (ext : List (List Char)) (hext : ext.all strDotFree = true) :
    setPointer newDict (serializePointer s ext) =
      (lookupStr newDict (renderNat s)).map (fun t => (t, ext)) := by
  have hsplit : splitOnDot (serializePointer s ext) = renderNat s :: ext := by
    apply splitOnDot_intercalateDot
    · exact List.cons_ne_nil _ _
    · intro p hp
      rcases List.mem_cons.mp hp with h | h
      · rw [h]; exact renderNat_dotFree s
      · exact List.all_eq_true.mp hext p h
  have hne : (serializePointer s ext).isEmpty = false := by
    unfold serializePointer
    cases ext with
    | nil =>
      show (intercalateDot [renderNat s]).isEmpty = false
      have hr : intercalateDot [renderNat s] = renderNat s := rfl
      rw [hr]
      cases hc : renderNat s with
      | nil => exact absurd hc (renderNat_ne_nil s)
      | cons a l => rfl
    | cons e ext =>
      show (renderNat s ++ '.' :: intercalateDot (e :: ext)).isEmpty = false
      cases hc : renderNat s with
      | nil => exact absurd hc (renderNat_ne_nil s)
      | cons a l => rfl
  unfold setPointer
  rw [hne, hsplit]
  simp only [Bool.false_eq_true, if_false, List.headD_cons, List.tail_cons]
  cases hlk : lookupStr newDict (renderNat s) with
  | none => rfl
  | some t => rfl

theorem lookupStr_renderNat (pairs : List (Nat × Nat)) (s : Nat) :
    lookupStr (pairs.map (fun pr => (renderNat pr.1, pr.2))) (renderNat s) =
      lookupNat pairs s := by
  induction pairs with
  | nil => rfl
  | cons kv rest ih =>
    obtain ⟨k, v⟩ := kv
    show lookupStr ((renderNat k, v) :: _) (renderNat s) =
      lookupNat ((k, v) :: rest) s
    unfold lookupStr lookupNat
    by_cases he : s = k
    · rw [if_pos (by rw [he]), if_pos he]
    · rw [if_neg (fun hc => he (renderNat_inj s k hc)), if_neg he]
      exact ih

theorem lookupNat_zip_self (olds : List Nat) (hnd : olds.Nodup) :
    ∀ (fresh : List Nat) (a : Nat) (ha : a < olds.length)
      (ha2 : a < fresh.length),
      lookupNat (olds.zip fresh) (olds.get ⟨a, ha⟩) =
        some (fresh.get ⟨a, ha2⟩) := by
  induction olds with
  | nil => intro fresh a ha; exact absurd ha (by simp)
  | cons o olds ih =>
    intro fresh a ha ha2
    cases fresh with
    | nil => exact absurd ha2 (by simp)
    | cons f fresh =>
      cases a with
      | zero =>
        show lookupNat ((o, f) :: olds.zip fresh) o = some f
        unfold lookupNat
        rw [if_pos rfl]
      | succ a =>
        show lookupNat ((o, f) :: olds.zip fresh) (olds.get ⟨a, _⟩) =
          some (fresh.get ⟨a, _⟩)
        unfold lookupNat
        have hne : olds.get ⟨a, by simpa using Nat.lt_of_succ_lt_succ ha⟩ ≠ o := by
          intro he
          exact (List.nodup_cons.mp hnd).1
            (he ▸ List.get_mem olds a (by simpa using Nat.lt_of_succ_lt_succ ha))
        rw [if_neg hne]
        exact ih (List.nodup_cons.mp hnd).2 fresh a
          (Nat.lt_of_succ_lt_succ ha) (Nat.lt_of_succ_lt_succ ha2)

theorem lookupNat_zip_mem_of_eq (olds : List Nat) :
    ∀ (fresh : List Nat) (s t : Nat),
      lookupNat (olds.zip fresh) s = some t →
      ∃ j, ∃ (hj : j < olds.length) (hj2 : j < fresh.length),
        olds.get ⟨j, hj⟩ = s ∧ fresh.get ⟨j, hj2⟩ = t := by
  induction olds with
  | nil => intro fresh s t h; exact Option.noConfusion h
  | cons o olds ih =>
    intro fresh s t h
    cases fresh with
    | nil => exact Option.noConfusion h
    | cons f fresh =>
      rw [List.zip_cons_cons] at h
      unfold lookupNat at h
      by_cases he : s = o
      · rw [if_pos he] at h
        refine ⟨0, by simp, by simp, he.symm, ?_⟩
        exact Option.some.inj h
      · rw [if_neg he] at h
        rcases ih fresh s t h with ⟨j, hj, hj2, h1, h2⟩
        exact ⟨j + 1, Nat.succ_lt_succ hj, Nat.succ_lt_succ hj2, h1, h2⟩

theorem lookupNat_zip_not_mem (olds : List Nat) :
    ∀ (fresh : List Nat) (s : Nat), ¬ s ∈ olds →
      lookupNat (olds.zip fresh) s = none := by
  induction olds with
  | nil => intro fresh s h; cases fresh <;> rfl
  | cons o olds ih =>
    intro fresh s h
    cases fresh with
    | nil => rfl
    | cons f fresh =>
      show lookupNat ((o, f) :: olds.zip fresh) s = none
      unfold lookupNat
      rw [if_neg (fun he => h (by rw [he]; exact List.mem_cons_self o olds))]
      exact ih fresh s (fun hm => h (List.mem_cons_of_mem o hm))

/-- `importParam` applied to a serialized parameter gives exactly the
behaviour the spec describes. -/
theorem importParam_spec (pairs : List (Nat × Nat)) (v : ParamValue)
    (hdot : paramDotFree v = true) :
    importParam (pairs.map (fun pr => (renderNat pr.1, pr.2)))
      (paramKindOf v) (serializeParam v) = specImportedParam pairs v := by
  cases v with
  | scalar w => rfl
  | pointer s e =>
    show ImpValue.pointer (setPointer _ (serializePointer s e)) =
      ImpValue.pointer ((lookupNat pairs s).map (fun t => (t, e)))
    rw [setPointer_serializePointer _ s e hdot, lookupStr_renderNat]
  | pointerList ps =>
    show ImpValue.pointerList
        ((ps.map (fun pr => serializePointer pr.1 pr.2)).map
          (setPointer (pairs.map (fun pr => (renderNat pr.1, pr.2))))) =
      ImpValue.pointerList
        (ps.map (fun pr => (lookupNat pairs pr.1).map (fun t => (t, pr.2))))
    rw [List.map_map]
    congr 1
    apply List.map_congr_left
    intro pr hpr
    show setPointer _ (serializePointer pr.1 pr.2) = _
    have hprdot : pr.2.all strDotFree = true := by
      unfold paramDotFree at hdot
      exact List.all_eq_true.mp hdot pr hpr
    rw [setPointer_serializePointer _ pr.1 pr.2 hprdot, lookupStr_renderNat]

/-- The imported targets of a parameter are the original targets pushed
through the old-to-new id mapping. -/
theorem impParamTargets_spec (pairs : List (Nat × Nat)) (v : ParamValue) :
    impParamTargets (specImportedParam pairs v) =
      (paramTargets v).filterMap (lookupNat pairs) := by
  cases v with
  | scalar w => rfl
  | pointer s e =>
    show impParamTargets
        (ImpValue.pointer ((lookupNat pairs s).map (fun t => (t, e)))) =
      [s].filterMap (lookupNat pairs)
    cases hlk : lookupNat pairs s with
    | none => rw [List.filterMap_cons, hlk]; rfl
    | some t => rw [List.filterMap_cons, hlk]; rfl
  | pointerList ps =>
    show (ps.map (fun pr =>
        (lookupNat pairs pr.1).map (fun t => (t, pr.2)))).filterMap
          (fun pr => pr.map (fun x => x.1)) =
      (ps.map (fun pr => pr.1)).filterMap (lookupNat pairs)
    rw [List.filterMap_map, List.filterMap_map]
    have hfe : ((fun pr => pr.map (fun x => x.1)) ∘
        (fun pr : Nat × List (List Char) =>
          (lookupNat pairs pr.1).map (fun t => (t, pr.2)))) =
        ((lookupNat pairs) ∘ (fun pr => pr.1)) := by
      funext pr
      show ((lookupNat pairs pr.1).map (fun t => (t, pr.2))).map
        (fun x => x.1) = lookupNat pairs pr.1
      cases lookupNat pairs pr.1 <;> rfl
    rw [hfe]

theorem newDictOf_getProtocolsDict (protocols : List Proto)
    (freshIds : List Nat) :
    newDictOf (getProtocolsDict protocols) freshIds =
      ((protocols.map (fun p => p.id)).zip freshIds).map
        (fun pr => (renderNat pr.1, pr.2)) := by
  unfold newDictOf getProtocolsDict
  rw [List.zip_map_left, List.zip_map_left, List.map_map, List.map_map]
  rfl

/-- The protocol at position `k` after export followed by import: fresh id,
same class name, and every parameter transformed exactly as the spec
says. -/
theorem loadProtocols_getD (protocols : List Proto) (freshIds : List Nat)
    (kindOf : List Char → List Char → ParamKind)
    (hlen : protocols.length ≤ freshIds.length)
    (hkind : ∀ p ∈ protocols, ∀ q ∈ p.params,
      kindOf p.className q.1 = paramKindOf q.2)
    (hdot : ∀ p ∈ protocols, ∀ q ∈ p.params, paramDotFree q.2 = true)
    (k : Nat) (hk : k < protocols.length) :
    (loadProtocols kindOf freshIds (getProtocolsDict protocols)).getD k
        defaultImp =
      { id := freshIds.getD k 0,
        className := (protocols.getD k defaultProto).className,
        params := (protocols.getD k defaultProto).params.map (fun q =>
          (q.1, specImportedParam
            ((protocols.map (fun p => p.id)).zip freshIds) q.2)) } := by
  have hdl : (getProtocolsDict protocols).length = protocols.length :=
    List.length_map _ _
  have hzl : ((getProtocolsDict protocols).zip freshIds).length =
      protocols.length := by
    rw [List.length_zip, hdl]
    omega
  have himp : (loadProtocols kindOf freshIds
      (getProtocolsDict protocols)).length = protocols.length := by
    unfold loadProtocols
    rw [List.length_map]
    exact hzl
  have hkf : k < freshIds.length := by omega
  have hki : k < (loadProtocols kindOf freshIds
      (getProtocolsDict protocols)).length := by omega
  have hkz : k < ((getProtocolsDict protocols).zip freshIds).length := by omega
  have hkd : k < (getProtocolsDict protocols).length := by omega
  rw [getD_eq_get _ k _ hki, getD_eq_get protocols k defaultProto hk,
    getD_eq_get freshIds k 0 hkf]
  unfold loadProtocols
  have hmk : k < (List.map (fun pr : ProtoDict × Nat =>
      ({ id := pr.2, className := pr.1.className,
         params := pr.1.params.map (fun q =>
           (q.1, importParam (newDictOf (getProtocolsDict protocols)
             freshIds) (kindOf pr.1.className q.1) q.2)) } : ImpProto))
      ((getProtocolsDict protocols).zip freshIds)).length := by
    rw [List.length_map]
    exact hkz
  show (List.map (fun pr : ProtoDict × Nat =>
      ({ id := pr.2, className := pr.1.className,
         params := pr.1.params.map (fun q =>
           (q.1, importParam (newDictOf (getProtocolsDict protocols)
             freshIds) (kindOf pr.1.className q.1) q.2)) } : ImpProto))
      ((getProtocolsDict protocols).zip freshIds)).get ⟨k, hmk⟩ = _
  have hmapped : (List.map (fun pr : ProtoDict × Nat =>
      ({ id := pr.2, className := pr.1.className,
         params := pr.1.params.map (fun q =>
           (q.1, importParam (newDictOf (getProtocolsDict protocols)
             freshIds) (kindOf pr.1.className q.1) q.2)) } : ImpProto))
      ((getProtocolsDict protocols).zip freshIds)).get ⟨k, hmk⟩ =
      ({ id := (((getProtocolsDict protocols).zip freshIds).get ⟨k, hkz⟩).2,
         className := (((getProtocolsDict protocols).zip freshIds).get
           ⟨k, hkz⟩).1.className,
         params := (((getProtocolsDict protocols).zip freshIds).get
           ⟨k, hkz⟩).1.params.map (fun q =>
             (q.1, importParam (newDictOf (getProtocolsDict protocols)
               freshIds) (kindOf (((getProtocolsDict protocols).zip
                 freshIds).get ⟨k, hkz⟩).1.className q.1) q.2)) } :
        ImpProto) := by
    rw [List.get_eq_getElem, List.getElem_map]
    rfl
  rw [hmapped]
  have hzk : ((getProtocolsDict protocols).zip freshIds).get ⟨k, hkz⟩ =
      ((getProtocolsDict protocols).get ⟨k, hkd⟩, freshIds.get ⟨k, hkf⟩) := by
    rw [List.get_eq_getElem, List.getElem_zip]
    rfl
  rw [hzk]
  have hdk : (getProtocolsDict protocols).get ⟨k, hkd⟩ =
      { id := (protocols.get ⟨k, hk⟩).id,
        className := (protocols.get ⟨k, hk⟩).className,
        params := (protocols.get ⟨k, hk⟩).params.map (fun q =>
          (q.1, serializeParam q.2)) } := by
    unfold getProtocolsDict
    rw [List.get_eq_getElem, List.getElem_map]
    rfl
  rw [hdk]
  have hpmem := List.get_mem protocols k hk
  congr 1
  rw [List.map_map]
  apply List.map_congr_left
  intro q hq
  show (q.1, importParam (newDictOf (getProtocolsDict protocols) freshIds)
    (kindOf (protocols.get ⟨k, hk⟩).className q.1) (serializeParam q.2)) = _
  rw [newDictOf_getProtocolsDict,
    hkind (protocols.get ⟨k, hk⟩) hpmem q hq,
    importParam_spec _ q.2 (hdot (protocols.get ⟨k, hk⟩) hpmem q hq)]

/-- A fresh id occurs among the translated targets iff the corresponding old
id occurs among the original targets. -/
theorem mem_filterMap_lookup_iff (olds fresh : List Nat)
    (hndOld : olds.Nodup) (hndFresh : fresh.Nodup)
    (a : Nat) (ha : a < olds.length) (ha2 : a < fresh.length)
    (targets : List Nat) :
    (fresh.get ⟨a, ha2⟩ ∈
        targets.filterMap (lookupNat (olds.zip fresh)) ↔
      olds.get ⟨a, ha⟩ ∈ targets) := by
  constructor
  · intro h
    rcases List.mem_filterMap.mp h with ⟨s, hs, hlk⟩
    rcases lookupNat_zip_mem_of_eq olds fresh s _ hlk with
      ⟨j, hj, hj2, h1, h2⟩
    have hja : j = a := nodup_get_inj hndFresh hj2 ha2 h2
    subst hja
    exact h1 ▸ hs
  · intro h
    exact List.mem_filterMap.mpr
      ⟨olds.get ⟨a, ha⟩, h, lookupNat_zip_self olds hndOld fresh a ha ha2⟩

/-- C3: exporting a protocol list and re-importing it yields a protocol set
isomorphic to the original modulo fresh ids: (a) one imported protocol per
original, carrying the fresh id and the original class name; (b) every
pointer parameter — serialized as `"<srcId>.<outKey>"` and split on `'.'` at
re-import — targets the newly created protocol mapped from `<srcId>` with the
remaining parts as extended path (pointers to protocols outside the list
resolve to nothing), scalar parameters keep their value; (c) hence the runs
graphs agree: the original list has an edge from protocol `a` to protocol
`b` iff the imported list has the corresponding edge between their fresh
counterparts. -/
theorem C3_export_import_roundtrip
    (protocols : List Proto) (freshIds : List Nat)
    (kindOf : List Char → List Char → ParamKind)
    (hlen : protocols.length ≤ freshIds.length)
    (hndOld : (protocols.map (fun p => p.id)).Nodup)
    (hndFresh : freshIds.Nodup)
    (hkind : ∀ p ∈ protocols, ∀ q ∈ p.params,
      kindOf p.className q.1 = paramKindOf q.2)
    (hdot : ∀ p ∈ protocols, ∀ q ∈ p.params, paramDotFree q.2 = true) :
    (loadProtocols kindOf freshIds (getProtocolsDict protocols)).length =
        protocols.length
    ∧ (∀ k, k < protocols.length →
        (loadProtocols kindOf freshIds (getProtocolsDict protocols)).getD k
            defaultImp =
          { id := freshIds.getD k 0,
            className := (protocols.getD k defaultProto).className,
            params := (protocols.getD k defaultProto).params.map (fun q =>
              (q.1, specImportedParam
                ((protocols.map (fun p => p.id)).zip freshIds) q.2)) })
    ∧ (∀ a b, a < protocols.length → b < protocols.length →
        (protoPointsTo (protocols.getD b defaultProto)
            ((protocols.getD a defaultProto).id) = true ↔
         impPointsTo ((loadProtocols kindOf freshIds
              (getProtocolsDict protocols)).getD b defaultImp)
            (((loadProtocols kindOf freshIds
              (getProtocolsDict protocols)).getD a defaultImp).id) = true)) := by
  have hdl : (getProtocolsDict protocols).length = protocols.length :=
    List.length_map _ _
  have himp : (loadProtocols kindOf freshIds
      (getProtocolsDict protocols)).length = protocols.length := by
    unfold loadProtocols
    rw [List.length_map, List.length_zip, hdl]
    omega
  refine ⟨himp, ?_, ?_⟩
  · intro k hk
    exact loadProtocols_getD protocols freshIds kindOf hlen hkind hdot k hk
  · intro a b ha hb
    have haf : a < freshIds.length := by omega
    have hao : a < (protocols.map (fun p => p.id)).length := by
      rw [List.length_map]; exact ha
    rw [loadProtocols_getD protocols freshIds kindOf hlen hkind hdot a ha,
      loadProtocols_getD protocols freshIds kindOf hlen hkind hdot b hb]
    show protoPointsTo (protocols.getD b defaultProto)
        ((protocols.getD a defaultProto).id) = true ↔
      (((protocols.getD b defaultProto).params.map (fun q =>
        (q.1, specImportedParam
          ((protocols.map (fun p => p.id)).zip freshIds) q.2))).any
        (fun q => (impParamTargets q.2).contains (freshIds.getD a 0))) = true
    unfold protoPointsTo
    rw [List.any_eq_true, List.any_eq_true]
    constructor
    · intro hex
      rcases hex with ⟨q, hq, hcont⟩
      refine ⟨(q.1, specImportedParam
        ((protocols.map (fun p => p.id)).zip freshIds) q.2),
        List.mem_map_of_mem _ hq, ?_⟩
      show (impParamTargets (specImportedParam _ q.2)).contains
        (freshIds.getD a 0) = true
      rw [impParamTargets_spec]
      have hmem : (protocols.getD a defaultProto).id ∈ paramTargets q.2 :=
        List.elem_iff.mp hcont
      apply List.elem_iff.mpr
      rw [getD_eq_get freshIds a 0 haf]
      apply (mem_filterMap_lookup_iff (protocols.map (fun p => p.id))
        freshIds hndOld hndFresh a hao haf (paramTargets q.2)).mpr
      have hget : (protocols.map (fun p => p.id)).get ⟨a, hao⟩ =
          (protocols.getD a defaultProto).id := by
        rw [List.get_eq_getElem, List.getElem_map,
          getD_eq_get protocols a defaultProto ha, List.get_eq_getElem]
      rw [hget]
      exact hmem
    · intro hex
      rcases hex with ⟨x, hx, hcont⟩
      rcases List.mem_map.mp hx with ⟨q, hq, hxq⟩
      refine ⟨q, hq, ?_⟩
      rw [← hxq] at hcont
      have hcont2 : (impParamTargets (specImportedParam
          ((protocols.map (fun p => p.id)).zip freshIds) q.2)).contains
          (freshIds.getD a 0) = true := hcont
      rw [impParamTargets_spec] at hcont2
      have hmem := List.elem_iff.mp hcont2
      rw [getD_eq_get freshIds a 0 haf] at hmem
      have hmem2 := (mem_filterMap_lookup_iff (protocols.map (fun p => p.id))
        freshIds hndOld hndFresh a hao haf (paramTargets q.2)).mp hmem
      apply List.elem_iff.mpr
      have hget : (protocols.map (fun p => p.id)).get ⟨a, hao⟩ =
          (protocols.getD a defaultProto).id := by
        rw [List.get_eq_getElem, List.getElem_map,
          getD_eq_get protocols a defaultProto ha, List.get_eq_getElem]
      rw [hget] at hmem2
      exact hmem2

def c3A : Proto := ⟨1, ['A'], []⟩

def c3B : Proto :=
  ⟨2, ['B'],
   [(['p'], ParamValue.pointer 1 [['o']]),
    (['s'], ParamValue.scalar ['v']),
    (['l'], ParamValue.pointerList [(1, [['o']]), (9, [])])]⟩

def c3Protocols : List Proto := [c3A, c3B]

def c3Fresh : List Nat := [7, 8]

def c3KindOf : List Char → List Char → ParamKind := fun _ n =>
  if n = ['p'] then ParamKind.pointerK
  else if n = ['l'] then ParamKind.pointerListK
  else ParamKind.scalarK

theorem C3_export_import_roundtrip_witness :
    (loadProtocols c3KindOf c3Fresh (getProtocolsDict c3Protocols)).length =
        c3Protocols.length
    ∧ (∀ k, k < c3Protocols.length →
        (loadProtocols c3KindOf c3Fresh (getProtocolsDict c3Protocols)).getD k
            defaultImp =
          { id := c3Fresh.getD k 0,
            className := (c3Protocols.getD k defaultProto).className,
            params := (c3Protocols.getD k defaultProto).params.map (fun q =>
              (q.1, specImportedParam
                ((c3Protocols.map (fun p => p.id)).zip c3Fresh) q.2)) })
    ∧ (∀ a b, a < c3Protocols.length → b < c3Protocols.length →
        (protoPointsTo (c3Protocols.getD b defaultProto)
            ((c3Protocols.getD a defaultProto).id) = true ↔
         impPointsTo ((loadProtocols c3KindOf c3Fresh
              (getProtocolsDict c3Protocols)).getD b defaultImp)
            (((loadProtocols c3KindOf c3Fresh
              (getProtocolsDict c3Protocols)).getD a defaultImp).id) = true)) :=
  C3_export_import_roundtrip c3Protocols c3Fresh c3KindOf (by decide)
    (by decide) (by decide) (by decide) (by decide)

end Pwf
